import Mathlib

/-!
Shallow embedding of the dungeon-puzzle validator and backtracking solver
from `src/main.rs` of rylmovuk/zach-dnd-solver, together with theorems that
settle the specification claims about it.

The board is an 8×8 grid of cells; coordinates used by the grid accessor are
signed (`Int` here, `i8` in the source) and out-of-range coordinates read as
`Wall`.  Rust's `Result` is embedded as `Except` / `Option`; the in-place
mutating solver is embedded by threading the board state explicitly and
returning the final board together with the success flag.  The flood fill in
`check_solved` runs on a worklist; it is embedded with an explicit iteration
budget (`floodLimit`) that provably dominates the loop's measure
(`floodFuel_stable` below shows the result is independent of any budget at
least as large as the measure, so the embedding computes the same value as
the unbounded loop).
-/

namespace ZachDnd

/-- `Cell` from the source: one of Unknown, Empty, Wall, Monster, Chest. -/
inductive Cell where
  | Unknown : Cell
  | Empty : Cell
  | Wall : Cell
  | Monster : Cell
  | Chest : Cell
deriving DecidableEq, Repr

def Cell.isUnknown : Cell → Bool
  | Cell.Unknown => true
  | _ => false

def Cell.isEmpty : Cell → Bool
  | Cell.Empty => true
  | _ => false

def Cell.isWall : Cell → Bool
  | Cell.Wall => true
  | _ => false

def Cell.isMonster : Cell → Bool
  | Cell.Monster => true
  | _ => false

def Cell.isChest : Cell → Bool
  | Cell.Chest => true
  | _ => false

/-- `BoardError` from the source (field types: `Index = i8`, embedded as `Int`). -/
inductive BoardError where
  | Unsolved : BoardError
  | WrongRowCount : Int → BoardError
  | WrongColumnCount : Int → BoardError
  | MonsterNotInDeadEnd : Int → Int → BoardError
  | DeadEndWithNoMontster : Int → Int → BoardError
  | NoTreasureRoomForChest : Int → Int → BoardError
  | CorridorsTooWide : Int → Int → BoardError
  | UnconnectedCorridors : BoardError
deriving DecidableEq, Repr

/-- `Board` from the source: `cells: [[Cell; 8]; 8]`, `column_counts: [u8; 8]`,
`row_counts: [u8; 8]`.  The arrays are embedded as functions on `Fin 8`. -/
structure Board where
  cells : Fin 8 → Fin 8 → Cell
  column_counts : Fin 8 → Nat
  row_counts : Fin 8 → Nat

instance : DecidableEq Board := fun a b =>
  decidable_of_iff
    (a.cells = b.cells ∧ a.column_counts = b.column_counts ∧ a.row_counts = b.row_counts)
    (by cases a; cases b; simp)

/-- Rust `e.is_ok()` on a `Result`. -/
def resultOk {ε α : Type} : Except ε α → Bool
  | Except.ok _ => true
  | Except.error _ => false

instance {ε α : Type} [DecidableEq ε] [DecidableEq α] : DecidableEq (Except ε α) :=
  fun a b =>
    match a, b with
    | Except.ok x, Except.ok y => decidable_of_iff (x = y) (by simp)
    | Except.error x, Except.error y => decidable_of_iff (x = y) (by simp)
    | Except.ok _, Except.error _ => isFalse (by simp)
    | Except.error _, Except.ok _ => isFalse (by simp)

/-- `Board::is_in_bounds`: both coordinates in `0..8`. -/
def Board.is_in_bounds (_ : Board) (r c : Int) : Bool :=
  decide (0 ≤ r ∧ r < 8) && decide (0 ≤ c ∧ c < 8)

/-- `Board::at`: the cell at `(r, c)` when in bounds, `Wall` otherwise
(the grid index is evaluated only under the bounds guard). -/
def Board.at' (b : Board) (r c : Int) : Cell :=
  if h : 0 ≤ r ∧ r < 8 ∧ 0 ≤ c ∧ c < 8 then
    b.cells ⟨r.toNat, by omega⟩ ⟨c.toNat, by omega⟩
  else
    Cell.Wall

/-- Row-major enumeration of all grid coordinates (`for i { for j { .. } }`). -/
def rowMajor : List (Fin 8 × Fin 8) :=
  (List.finRange 8).flatMap fun i => (List.finRange 8).map fun j => (i, j)

/-- Number of `Wall` cells in row `i` (`row.iter().filter(is Wall).count()`). -/
def rowWalls (b : Board) (i : Fin 8) : Nat :=
  (List.finRange 8).countP fun j => (b.cells i j).isWall

/-- Number of `Unknown` cells in row `i`. -/
def rowUnknowns (b : Board) (i : Fin 8) : Nat :=
  (List.finRange 8).countP fun j => (b.cells i j).isUnknown

/-- Number of `Wall` cells in column `j`. -/
def colWalls (b : Board) (j : Fin 8) : Nat :=
  (List.finRange 8).countP fun i => (b.cells i j).isWall

/-- Number of `Unknown` cells in column `j`. -/
def colUnknowns (b : Board) (j : Fin 8) : Nat :=
  (List.finRange 8).countP fun i => (b.cells i j).isUnknown

/-- `Board::rows_acceptable`: index of the first row whose target count falls
outside `[walls, walls + unknowns]`, or `none` when all rows are in range. -/
def Board.rows_acceptable (b : Board) : Option (Fin 8) :=
  (List.finRange 8).find? fun i =>
    !(decide (rowWalls b i ≤ b.row_counts i) &&
      decide (b.row_counts i ≤ rowWalls b i + rowUnknowns b i))

/-- `Board::cols_acceptable`: same as `rows_acceptable` for columns. -/
def Board.cols_acceptable (b : Board) : Option (Fin 8) :=
  (List.finRange 8).find? fun j =>
    !(decide (colWalls b j ≤ b.column_counts j) &&
      decide (b.column_counts j ≤ colWalls b j + colUnknowns b j))

/-- The 4 orthogonal neighbor coordinates used by the dead-end predicates and
the flood fill: `[(r-1,c), (r,c-1), (r,c+1), (r+1,c)]`. -/
def neighborsOf (r c : Int) : List (Int × Int) :=
  [(r - 1, c), (r, c - 1), (r, c + 1), (r + 1, c)]

/-- `Board::is_dead_end`: cell not Unknown/Wall and exactly 3 of the 4
orthogonal neighbors (via `at`) are Wall. -/
def Board.is_dead_end (b : Board) (r c : Int) : Bool :=
  if (b.at' r c).isUnknown || (b.at' r c).isWall then
    false
  else
    ((neighborsOf r c).countP fun p => (b.at' p.1 p.2).isWall) == 3

/-- `Board::maybe_dead_end`: `walls ≤ 3 && air ≤ 1` over the 4 orthogonal
neighbors, where `walls` counts Wall and `air` counts Empty neighbors. -/
def Board.maybe_dead_end (b : Board) (r c : Int) : Bool :=
  let walls := (neighborsOf r c).countP fun p => (b.at' p.1 p.2).isWall
  let air := (neighborsOf r c).countP fun p => (b.at' p.1 p.2).isEmpty
  decide (walls ≤ 3) && decide (air ≤ 1)

/-- The 9 interior coordinates of the 3×3 block with top-left corner `(r, c)`,
in the source's order. -/
def insideCoords (r c : Int) : List (Int × Int) :=
  [(r, c), (r, c + 1), (r, c + 2),
   (r + 1, c), (r + 1, c + 1), (r + 1, c + 2),
   (r + 2, c), (r + 2, c + 1), (r + 2, c + 2)]

/-- The 12 orthogonal boundary coordinates of the 3×3 block with top-left
corner `(r, c)`, in the source's order (top, left-right, bottom). -/
def outsideCoords (r c : Int) : List (Int × Int) :=
  [(r - 1, c), (r - 1, c + 1), (r - 1, c + 2),
   (r, c - 1), (r, c + 3),
   (r + 1, c - 1), (r + 1, c + 3),
   (r + 2, c - 1), (r + 2, c + 3),
   (r + 3, c), (r + 3, c + 1), (r + 3, c + 2)]

/-- Interior scan of `Board::is_treasure_room`: every cell must be Empty or a
first Chest (`chest_seen` tracks whether a Chest was already found);
anything else aborts with `false`. -/
def insideScanExact (b : Board) : List (Int × Int) → Bool → Bool
  | [], _ => true
  | p :: rest, chest_seen =>
    match b.at' p.1 p.2 with
    | Cell.Chest => if chest_seen then false else insideScanExact b rest true
    | Cell.Empty => insideScanExact b rest chest_seen
    | _ => false

/-- Interior scan of `Board::maybe_treasure_room`: like `insideScanExact` but
`Unknown` cells are also allowed. -/
def insideScanRelaxed (b : Board) : List (Int × Int) → Bool → Bool
  | [], _ => true
  | p :: rest, chest_seen =>
    match b.at' p.1 p.2 with
    | Cell.Chest => if chest_seen then false else insideScanRelaxed b rest true
    | Cell.Empty => insideScanRelaxed b rest chest_seen
    | Cell.Unknown => insideScanRelaxed b rest chest_seen
    | _ => false

/-- `Board::is_treasure_room`: interior scan passes and exactly
`outside_coords.len() - 1 = 11` of the 12 boundary cells are Wall. -/
def Board.is_treasure_room (b : Board) (r c : Int) : Bool :=
  if insideScanExact b (insideCoords r c) false then
    ((outsideCoords r c).countP fun p => (b.at' p.1 p.2).isWall)
      == (outsideCoords r c).length - 1
  else
    false

/-- `Board::maybe_treasure_room`: relaxed interior scan passes and `11` lies
in the inclusive range `[wall_count, wall_count + unknown_count]` over the 12
boundary cells. -/
def Board.maybe_treasure_room (b : Board) (r c : Int) : Bool :=
  if insideScanRelaxed b (insideCoords r c) false then
    let wall_count := (outsideCoords r c).countP fun p => (b.at' p.1 p.2).isWall
    let unknown_count := (outsideCoords r c).countP fun p => (b.at' p.1 p.2).isUnknown
    decide (wall_count ≤ (outsideCoords r c).length - 1) &&
      decide ((outsideCoords r c).length - 1 ≤ wall_count + unknown_count)
  else
    false

/-- The 9 candidate top-left corners of a treasure room containing the chest
at `(r, c)`, in the source's order. -/
def candidates (r c : Int) : List (Int × Int) :=
  [(r - 2, c - 2), (r - 2, c - 1), (r - 2, c),
   (r - 1, c - 2), (r - 1, c - 1), (r - 1, c),
   (r, c - 2), (r, c - 1), (r, c)]

/-- The core cell scan of `check_solved`: in row-major order, enforce the
monster/dead-end biconditional and, for each Chest, find a valid treasure
room among its 9 candidates, accumulating the rooms' top-left corners. -/
def checkCellsLoop (b : Board) :
    List (Fin 8 × Fin 8) → List (Int × Int) → Except BoardError (List (Int × Int))
  | [], rooms => Except.ok rooms
  | p :: rest, rooms =>
    let is_monster := (b.cells p.1 p.2).isMonster
    let is_de := b.is_dead_end (p.1 : Nat) (p.2 : Nat)
    if is_monster ≠ is_de then
      if is_monster then
        Except.error (BoardError.MonsterNotInDeadEnd (p.1 : Nat) (p.2 : Nat))
      else
        Except.error (BoardError.DeadEndWithNoMontster (p.1 : Nat) (p.2 : Nat))
    else
      if (b.cells p.1 p.2).isChest then
        match (candidates (p.1 : Nat) (p.2 : Nat)).find?
            (fun q => b.is_treasure_room q.1 q.2) with
        | some room => checkCellsLoop b rest (rooms ++ [room])
        | none => Except.error (BoardError.NoTreasureRoomForChest (p.1 : Nat) (p.2 : Nat))
      else
        checkCellsLoop b rest rooms

/-- `a..=b` as a list of integers. -/
def rangeClosed (a b : Int) : List Int :=
  (List.range (b - a + 1).toNat).map fun k => a + (k : Nat)

/-- The 32 relative offsets exempted around a treasure room's top-left corner
(`affected_coords` in the source): the row `(-2, -1..=2)`, the rectangle
`(-1..=2) × (-2..=3)` and the row `(3, -1..=2)`. -/
def affected_coords : List (Int × Int) :=
  ((rangeClosed (-1) 2).map fun c => ((-2 : Int), c)) ++
    ((rangeClosed (-1) 2).flatMap fun r => (rangeClosed (-2) 3).map fun c => (r, c)) ++
    ((rangeClosed (-1) 2).map fun c => ((3 : Int), c))

/-- Clear the `check` mark at `(r, c)` when that coordinate is in bounds
(the source filters `affected_coords` through `is_in_bounds`). -/
def markOff (check : Fin 8 → Fin 8 → Bool) (r c : Int) : Fin 8 → Fin 8 → Bool :=
  if h : 0 ≤ r ∧ r < 8 ∧ 0 ≤ c ∧ c < 8 then
    fun i j => if i = ⟨r.toNat, by omega⟩ ∧ j = ⟨c.toNat, by omega⟩ then false else check i j
  else
    check

/-- `coords_to_check` from `check_solved`: start all-true and clear every
in-bounds coordinate in the affected footprint of every treasure room. -/
def coords_to_check (rooms : List (Int × Int)) : Fin 8 → Fin 8 → Bool :=
  rooms.foldl
    (fun check room =>
      affected_coords.foldl (fun check d => markOff check (room.1 + d.1) (room.2 + d.2)) check)
    (fun _ _ => true)

/-- Row-major enumeration of the 2×2 block top-left corners `(0,0)..(6,6)`. -/
def pairs7 : List (Fin 7 × Fin 7) :=
  (List.finRange 7).flatMap fun i => (List.finRange 7).map fun j => (i, j)

/-- The 2×2 block with top-left corner `p` consists of 4 `Empty` cells. -/
def empty2x2 (b : Board) (p : Fin 7 × Fin 7) : Bool :=
  (b.cells p.1.castSucc p.2.castSucc).isEmpty &&
    (b.cells p.1.castSucc p.2.succ).isEmpty &&
    (b.cells p.1.succ p.2.castSucc).isEmpty &&
    (b.cells p.1.succ p.2.succ).isEmpty

/-- Mark `(r, c)` as seen in the flood fill's `seen` array. -/
def updateSeen (seen : Fin 8 → Fin 8 → Bool) (r c : Fin 8) : Fin 8 → Fin 8 → Bool :=
  fun i j => if i = r ∧ j = c then true else seen i j

/-- The neighbors pushed onto the flood-fill worklist from `(r, c)`: the 4
orthogonal neighbors whose cell (via `at`, so out-of-bounds reads as Wall
and is dropped) is not Wall.  Since every kept coordinate is in bounds it is
returned as a `Fin 8` pair, which is what the `seen` array is indexed by. -/
def pushNeighbors (b : Board) (r c : Int) : List (Fin 8 × Fin 8) :=
  (neighborsOf r c).filterMap fun q =>
    if h : 0 ≤ q.1 ∧ q.1 < 8 ∧ 0 ≤ q.2 ∧ q.2 < 8 then
      if (b.cells ⟨q.1.toNat, by omega⟩ ⟨q.2.toNat, by omega⟩).isWall then
        none
      else
        some (⟨q.1.toNat, by omega⟩, ⟨q.2.toNat, by omega⟩)
    else
      none

/-- The flood-fill worklist loop of `check_solved`, with an explicit
iteration budget.  Each iteration pops the top of the stack; an unseen cell
is marked, counted, and its non-Wall neighbors are pushed (`Vec::extend`
followed by `pop` makes the last-listed neighbor the next popped, hence the
`reverse`).  `floodFuel_stable` below shows the budget is irrelevant once it
dominates the loop measure, so `floodLimit` computes the loop's limit. -/
def floodFuel (b : Board) : Nat → List (Fin 8 × Fin 8) → (Fin 8 → Fin 8 → Bool) → Nat → Nat
  | _, [], _, count => count
  | 0, _ :: _, _, count => count
  | fuel + 1, (r, c) :: rest, seen, count =>
    if seen r c then
      floodFuel b fuel rest seen count
    else
      floodFuel b fuel ((pushNeighbors b (r : Nat) (c : Nat)).reverse ++ rest)
        (updateSeen seen r c) (count + 1)

/-- An iteration budget provably larger than the flood-fill loop measure
`5 * (number of unseen cells) + (stack length)` for any start state of
`check_solved` (64 cells, initial stack of at most one element). -/
def floodLimit : Nat := 5 * 64 + 1

/-- First `Empty` cell in row-major order (start of the flood fill). -/
def firstEmpty (b : Board) : Option (Fin 8 × Fin 8) :=
  rowMajor.find? fun p => (b.cells p.1 p.2).isEmpty

/-- Count of non-Wall cells (`total_empty` in the source). -/
def totalNonWall (b : Board) : Nat :=
  rowMajor.countP fun p => !(b.cells p.1 p.2).isWall

/-- `Board::check_solved`, the Full Validator: reject Unknown cells, then
mismatching row and column wall counts, then scan cells for the
monster/dead-end biconditional and chest treasure rooms, then non-exempt
2×2 all-Empty blocks, then compare the flood fill's connected count with
the total non-Wall count (trivially connected when no Empty cell exists). -/
def Board.check_solved (b : Board) : Except BoardError Unit :=
  if rowMajor.any (fun p => (b.cells p.1 p.2).isUnknown) then
    Except.error BoardError.Unsolved
  else
    match (List.finRange 8).find? (fun i => !(rowWalls b i == b.row_counts i)) with
    | some i => Except.error (BoardError.WrongRowCount (i : Nat))
    | none =>
      match (List.finRange 8).find? (fun j => !(colWalls b j == b.column_counts j)) with
      | some j => Except.error (BoardError.WrongColumnCount (j : Nat))
      | none =>
        match checkCellsLoop b rowMajor [] with
        | Except.error e => Except.error e
        | Except.ok treasure_rooms =>
          let check := coords_to_check treasure_rooms
          match pairs7.find?
              (fun p => check p.1.castSucc p.2.castSucc && empty2x2 b p) with
          | some p => Except.error (BoardError.CorridorsTooWide (p.1 : Nat) (p.2 : Nat))
          | none =>
            let fe := firstEmpty b
            let connected_cells :=
              floodFuel b floodLimit fe.toList (fun _ _ => false) 0
            match fe with
            | none => Except.ok ()
            | some _ =>
              if connected_cells == totalNonWall b then
                Except.ok ()
              else
                Except.error BoardError.UnconnectedCorridors

/-- The cell scan of `Board::maybe_solvable`: in row-major order, require
`is_monster → maybe_dead_end` and `¬is_monster → ¬is_dead_end`, and for each
Chest some candidate passing the relaxed treasure-room test. -/
def maybeCellsLoop (b : Board) : List (Fin 8 × Fin 8) → Except BoardError Unit
  | [] => Except.ok ()
  | p :: rest =>
    let is_monster := (b.cells p.1 p.2).isMonster
    let mde := b.maybe_dead_end (p.1 : Nat) (p.2 : Nat)
    let ide := b.is_dead_end (p.1 : Nat) (p.2 : Nat)
    if is_monster && !mde then
      Except.error (BoardError.MonsterNotInDeadEnd (p.1 : Nat) (p.2 : Nat))
    else if !is_monster && ide then
      Except.error (BoardError.DeadEndWithNoMontster (p.1 : Nat) (p.2 : Nat))
    else if (b.cells p.1 p.2).isChest then
      if ((candidates (p.1 : Nat) (p.2 : Nat)).find?
          (fun q => b.maybe_treasure_room q.1 q.2)).isSome then
        maybeCellsLoop b rest
      else
        Except.error (BoardError.NoTreasureRoomForChest (p.1 : Nat) (p.2 : Nat))
    else
      maybeCellsLoop b rest

/-- `Board::maybe_solvable`, the Partial Feasibility Checker: row and column
range tests, then the relaxed cell scan. -/
def Board.maybe_solvable (b : Board) : Except BoardError Unit :=
  match b.rows_acceptable with
  | some i => Except.error (BoardError.WrongRowCount (i : Nat))
  | none =>
    match b.cols_acceptable with
    | some j => Except.error (BoardError.WrongColumnCount (j : Nat))
    | none => maybeCellsLoop b rowMajor

/-- `self.cells[r][c] = v` as a functional update. -/
def Board.setCell (b : Board) (r c : Fin 8) (v : Cell) : Board :=
  { b with cells := fun i j => if i = r ∧ j = c then v else b.cells i j }

/-- First `Unknown` cell in row-major order (the solver's branching cell). -/
def firstUnknown (b : Board) : Option (Fin 8 × Fin 8) :=
  rowMajor.find? fun p => (b.cells p.1 p.2).isUnknown

/-- Number of `Unknown` cells on the board. -/
def countUnknown (b : Board) : Nat :=
  (Finset.univ.filter fun p : Fin 8 × Fin 8 => b.cells p.1 p.2 = Cell.Unknown).card

/-- One level of `Board::solve` with the recursive call abstracted: find the
first Unknown cell (base case: delegate to `check_solved`), tentatively
assign Wall, prune with `maybe_solvable`, recurse; on failure do the same
with Empty on the state left by the first branch; on double failure restore
the cell to Unknown and fail. -/
def solveStep (recur : Board → Bool × Board) (b : Board) : Bool × Board :=
  match firstUnknown b with
  | none => (resultOk b.check_solved, b)
  | some rc =>
    match (if resultOk (b.setCell rc.1 rc.2 Cell.Wall).maybe_solvable then
             recur (b.setCell rc.1 rc.2 Cell.Wall)
           else
             (false, b.setCell rc.1 rc.2 Cell.Wall)) with
    | (true, s) => (true, s)
    | (false, s1) =>
      match (if resultOk (s1.setCell rc.1 rc.2 Cell.Empty).maybe_solvable then
               recur (s1.setCell rc.1 rc.2 Cell.Empty)
             else
               (false, s1.setCell rc.1 rc.2 Cell.Empty)) with
      | (true, s) => (true, s)
      | (false, s2) => (false, s2.setCell rc.1 rc.2 Cell.Unknown)

/-- `Board::solve` with an explicit recursion budget, one unit per branching
level (`solveFuel_stable` below shows any budget of at least `countUnknown`
cells gives the same result, which is the recursion-depth bound of the
source).  The boolean is Rust's `Result<(), Unsolvable>` (`true` = `Ok`);
the returned board is the state of the in-place-mutated grid at return. -/
def solveFuel : Nat → Board → Bool × Board
  | 0, b =>
    (match firstUnknown b with
     | none => (resultOk b.check_solved, b)
     | some _ => (false, b))
  | fuel + 1, b => solveStep (solveFuel fuel) b

/-- `Board::solve`: the recursion assigns one Unknown cell per level, so the
budget `countUnknown b` suffices (proved by `solve_fuel_stable`). -/
def Board.solve (b : Board) : Bool × Board :=
  solveFuel (countUnknown b) b

/-- Number of base-case (Full Validator) evaluations performed by
`solveFuel fuel b`: instruments the search without changing it. -/
def solveLeaves : Nat → Board → Nat
  | 0, b =>
    (match firstUnknown b with
     | none => 1
     | some _ => 0)
  | fuel + 1, b =>
    match firstUnknown b with
    | none => 1
    | some rc =>
      let lW := if resultOk (b.setCell rc.1 rc.2 Cell.Wall).maybe_solvable then
                  solveLeaves fuel (b.setCell rc.1 rc.2 Cell.Wall)
                else 0
      match (if resultOk (b.setCell rc.1 rc.2 Cell.Wall).maybe_solvable then
               solveFuel fuel (b.setCell rc.1 rc.2 Cell.Wall)
             else
               (false, b.setCell rc.1 rc.2 Cell.Wall)) with
      | (true, _) => lW
      | (false, s1) =>
        lW + (if resultOk (s1.setCell rc.1 rc.2 Cell.Empty).maybe_solvable then
                solveLeaves fuel (s1.setCell rc.1 rc.2 Cell.Empty)
              else 0)

/-- `C` is a completion of `P`: same count targets, `C` has no Unknown cell,
and `C` agrees with `P` on every cell that is not Unknown in `P`. -/
def completes (P C : Board) : Prop :=
  (∀ i, P.row_counts i = C.row_counts i) ∧
    (∀ j, P.column_counts j = C.column_counts j) ∧
    (∀ i j, C.cells i j ≠ Cell.Unknown) ∧
    (∀ i j, P.cells i j = Cell.Unknown ∨ P.cells i j = C.cells i j)

instance (P C : Board) : Decidable (completes P C) := by
  unfold completes; infer_instance

/-- The all-Wall board with every row and column target equal to 8. -/
def allWallBoard : Board where
  cells := fun _ _ => Cell.Wall
  column_counts := fun _ => 8
  row_counts := fun _ => 8

/-- Partial board rejected by `maybe_solvable` although a completion passes
`check_solved`: `(0,0)` is Empty with wall neighbors `(0,1)` and the two
off-board sides, `(1,0)` is Unknown, everything else is Wall. -/
def pruneCexPartial : Board where
  cells := fun i j =>
    if i.val = 0 ∧ j.val = 0 then Cell.Empty
    else if i.val = 1 ∧ j.val = 0 then Cell.Unknown
    else Cell.Wall
  column_counts := fun j => if j.val = 0 then 7 else 8
  row_counts := fun i => if i.val = 0 then 7 else 8

/-- The completion of `pruneCexPartial` that resolves `(1,0)` to Wall: a
single Empty cell enclosed by walls, which passes the Full Validator. -/
def pruneCexComplete : Board where
  cells := fun i j =>
    if i.val = 0 ∧ j.val = 0 then Cell.Empty
    else Cell.Wall
  column_counts := fun j => if j.val = 0 then 7 else 8
  row_counts := fun i => if i.val = 0 then 7 else 8

/-- A board with a Chest at `(0,0)` that has exactly 3 Wall neighbors
(`(1,0)` is Empty, the rest of the board is Wall). -/
def chestDeadEndBoard : Board where
  cells := fun i j =>
    if i.val = 0 ∧ j.val = 0 then Cell.Chest
    else if i.val = 1 ∧ j.val = 0 then Cell.Empty
    else Cell.Wall
  column_counts := fun _ => 8
  row_counts := fun _ => 8

/-- A board with a chest-free all-Empty 3×3 block at `(0,0)` whose boundary
has exactly 11 Wall cells (the entrance is `(3,2)`). -/
def emptyRoomBoard : Board where
  cells := fun i j =>
    if i.val ≤ 2 ∧ j.val ≤ 2 then Cell.Empty
    else if i.val = 3 ∧ j.val = 2 then Cell.Empty
    else Cell.Wall
  column_counts := fun _ => 8
  row_counts := fun _ => 8

/-- All-Wall board except one Unknown cell at `(0,0)`; targets 8, so the
solver succeeds by assigning Wall. -/
def oneUnknownBoard : Board where
  cells := fun i j => if i.val = 0 ∧ j.val = 0 then Cell.Unknown else Cell.Wall
  column_counts := fun _ => 8
  row_counts := fun _ => 8

/-- All-Wall board except one Unknown cell at `(0,0)`, with an unsatisfiable
row target, so the solver fails and must restore the board. -/
def oneUnknownBadBoard : Board where
  cells := fun i j => if i.val = 0 ∧ j.val = 0 then Cell.Unknown else Cell.Wall
  column_counts := fun _ => 8
  row_counts := fun i => if i.val = 0 then 0 else 8

/-- Number of cells marked seen by the flood fill. -/
def seenCard (seen : Fin 8 → Fin 8 → Bool) : Nat :=
  (Finset.univ.filter fun p : Fin 8 × Fin 8 => seen p.1 p.2 = true).card

/-- Number of cells not yet marked seen (the flood-fill loop measure uses
`5 * unseenCard + stack length`). -/
def unseenCard (seen : Fin 8 → Fin 8 → Bool) : Nat :=
  (Finset.univ.filter fun p : Fin 8 × Fin 8 => seen p.1 p.2 = false).card

/-- A complete board passing the Full Validator with three non-Wall cells:
Monster, Empty, Monster in the top row (both monsters sit in dead ends). -/
def monsterRowBoard : Board where
  cells := fun i j =>
    if i.val = 0 ∧ j.val = 0 then Cell.Monster
    else if i.val = 0 ∧ j.val = 1 then Cell.Empty
    else if i.val = 0 ∧ j.val = 2 then Cell.Monster
    else Cell.Wall
  column_counts := fun j => if j.val ≤ 2 then 7 else 8
  row_counts := fun i => if i.val = 0 then 5 else 8

/-- `monsterRowBoard` with the Wall at `(1,1)` turned back into Unknown: a
partial board completed by `monsterRowBoard`. -/
def monsterRowPartial : Board where
  cells := fun i j =>
    if i.val = 0 ∧ j.val = 0 then Cell.Monster
    else if i.val = 0 ∧ j.val = 1 then Cell.Empty
    else if i.val = 0 ∧ j.val = 2 then Cell.Monster
    else if i.val = 1 ∧ j.val = 1 then Cell.Unknown
    else Cell.Wall
  column_counts := fun j => if j.val ≤ 2 then 7 else 8
  row_counts := fun i => if i.val = 0 then 5 else 8

/-! ### Basic lemmas about the grid accessor -/

theorem at_coe (b : Board) (i j : Fin 8) : b.at' (i : Nat) (j : Nat) = b.cells i j := by
  have hi : (i : Nat) < 8 := i.isLt
  have hj : (j : Nat) < 8 := j.isLt
  unfold Board.at'
  rw [dif_pos (by omega)]
  congr 1

theorem at_out (b : Board) (r c : Int) (h : ¬(0 ≤ r ∧ r < 8 ∧ 0 ≤ c ∧ c < 8)) :
    b.at' r c = Cell.Wall := by
  unfold Board.at'
  exact dif_neg h

theorem at_cases (b : Board) (r c : Int) :
    (∃ i j : Fin 8, r = (i : Nat) ∧ c = (j : Nat) ∧ b.at' r c = b.cells i j) ∨
      b.at' r c = Cell.Wall := by
  by_cases h : 0 ≤ r ∧ r < 8 ∧ 0 ≤ c ∧ c < 8
  · left
    refine ⟨⟨r.toNat, by omega⟩, ⟨c.toNat, by omega⟩, by simp; omega, by simp; omega, ?_⟩
    unfold Board.at'
    rw [dif_pos h]
  · right
    exact at_out b r c h

/-! ### Characterizations of the interior scans of the treasure-room tests -/

theorem insideScanExact_iff (b : Board) (l : List (Int × Int)) (flag : Bool) :
    insideScanExact b l flag = true ↔
      ((∀ p ∈ l, b.at' p.1 p.2 = Cell.Empty ∨ b.at' p.1 p.2 = Cell.Chest) ∧
        (l.countP fun p => (b.at' p.1 p.2).isChest) + (if flag then 1 else 0) ≤ 1) := by
  induction l generalizing flag with
  | nil => cases flag <;> simp [insideScanExact]
  | cons p rest ih =>
    cases h : b.at' p.1 p.2 <;>
      cases flag <;>
      simp [insideScanExact, h, List.countP_cons, Cell.isChest, ih] <;>
      omega

theorem insideScanRelaxed_iff (b : Board) (l : List (Int × Int)) (flag : Bool) :
    insideScanRelaxed b l flag = true ↔
      ((∀ p ∈ l, b.at' p.1 p.2 = Cell.Empty ∨ b.at' p.1 p.2 = Cell.Unknown ∨
          b.at' p.1 p.2 = Cell.Chest) ∧
        (l.countP fun p => (b.at' p.1 p.2).isChest) + (if flag then 1 else 0) ≤ 1) := by
  induction l generalizing flag with
  | nil => cases flag <;> simp [insideScanRelaxed]
  | cons p rest ih =>
    cases h : b.at' p.1 p.2 <;>
      cases flag <;>
      simp [insideScanRelaxed, h, List.countP_cons, Cell.isChest, ih] <;>
      omega

/-! ### Claim theorems: the local classifiers -/

/-- C4 (amended): `is_dead_end(r,c)` is true iff the cell at `(r,c)` via the
Grid Accessor is Empty, Monster, or Chest — i.e. not Unknown or Wall — and
exactly 3 of its 4 orthogonal neighbors (via the Grid Accessor) are Wall. -/
theorem c4_dead_end_char (b : Board) (r c : Int) :
    b.is_dead_end r c = true ↔
      ((b.at' r c = Cell.Empty ∨ b.at' r c = Cell.Monster ∨ b.at' r c = Cell.Chest) ∧
        ((neighborsOf r c).countP fun p => (b.at' p.1 p.2).isWall) = 3) := by
  unfold Board.is_dead_end
  cases h : b.at' r c <;>
    simp only [h, Cell.isUnknown, Cell.isWall, Bool.or_self, Bool.false_or, Bool.or_false,
      Bool.true_or, if_true, if_false, beq_iff_eq] <;>
    simp

/-- C4 counterexample: on `chestDeadEndBoard` the cell `(0,0)` is a Chest with
exactly 3 Wall neighbors, and `is_dead_end` returns true — so the claim's
"Empty or Monster — not Chest" characterization is false as stated. -/
theorem c4_cex :
    chestDeadEndBoard.is_dead_end 0 0 = true ∧
      chestDeadEndBoard.at' 0 0 = Cell.Chest ∧
      ¬(chestDeadEndBoard.at' 0 0 = Cell.Empty ∨ chestDeadEndBoard.at' 0 0 = Cell.Monster) := by
  decide

/-- C7: `maybe_dead_end(r,c)` is true iff `walls ≤ 3` and `air ≤ 1`, where
`walls` counts Wall and `air` counts Empty cells among the 4 orthogonal
neighbors via the Grid Accessor; the right-hand side never mentions the cell
at `(r,c)` itself. -/
theorem c7_maybe_dead_end_char (b : Board) (r c : Int) :
    b.maybe_dead_end r c = true ↔
      (((neighborsOf r c).countP fun p => (b.at' p.1 p.2).isWall) ≤ 3 ∧
        ((neighborsOf r c).countP fun p => (b.at' p.1 p.2).isEmpty) ≤ 1) := by
  simp [Board.maybe_dead_end]

/-- C6: `maybe_treasure_room(r,c)` is true iff every interior cell of the 3×3
block (via the Grid Accessor) is Empty, Unknown, or Chest with at most one
Chest among them, and `11` lies in `[walls, walls + unknowns]` over the 12
orthogonal boundary cells. -/
theorem c6_maybe_treasure_room_char (b : Board) (r c : Int) :
    b.maybe_treasure_room r c = true ↔
      ((∀ p ∈ insideCoords r c,
          b.at' p.1 p.2 = Cell.Empty ∨ b.at' p.1 p.2 = Cell.Unknown ∨
            b.at' p.1 p.2 = Cell.Chest) ∧
        ((insideCoords r c).countP fun p => (b.at' p.1 p.2).isChest) ≤ 1 ∧
        ((outsideCoords r c).countP fun p => (b.at' p.1 p.2).isWall) ≤ 11 ∧
        11 ≤ ((outsideCoords r c).countP fun p => (b.at' p.1 p.2).isWall) +
          ((outsideCoords r c).countP fun p => (b.at' p.1 p.2).isUnknown)) := by
  have hlen : (outsideCoords r c).length = 12 := rfl
  unfold Board.maybe_treasure_room
  by_cases h : insideScanRelaxed b (insideCoords r c) false = true
  · rw [if_pos h]
    rw [insideScanRelaxed_iff] at h
    simp only [if_neg (Bool.false_ne_true), Nat.add_zero] at h
    simp only [hlen, Bool.and_eq_true, decide_eq_true_eq]
    constructor
    · rintro ⟨h1, h2⟩
      exact ⟨h.1, h.2, by omega, by omega⟩
    · rintro ⟨h1, h2, h3, h4⟩
      exact ⟨by omega, by omega⟩
  · rw [if_neg h]
    rw [insideScanRelaxed_iff] at h
    simp only [if_neg (Bool.false_ne_true), Nat.add_zero] at h
    exact iff_of_false (by simp) (fun hc => h ⟨hc.1, hc.2.1⟩)

/-- C5 (amended): `is_treasure_room(r,c)` returns true only if the 3×3 block
at `(r,c)` contains **at most** one Chest — every interior cell is Empty or
Chest with at most one Chest, and exactly 11 of the 12 orthogonal boundary
cells are Wall.  ("Exactly one Chest" is false: see `c5_cex`.) -/
theorem c5_treasure_room_necessary (b : Board) (r c : Int)
    (h : b.is_treasure_room r c = true) :
    (∀ p ∈ insideCoords r c,
        b.at' p.1 p.2 = Cell.Empty ∨ b.at' p.1 p.2 = Cell.Chest) ∧
      ((insideCoords r c).countP fun p => (b.at' p.1 p.2).isChest) ≤ 1 ∧
      ((outsideCoords r c).countP fun p => (b.at' p.1 p.2).isWall) = 11 := by
  unfold Board.is_treasure_room at h
  by_cases hs : insideScanExact b (insideCoords r c) false = true
  · rw [if_pos hs] at h
    rw [insideScanExact_iff] at hs
    simp only [if_neg (Bool.false_ne_true), Nat.add_zero] at hs
    refine ⟨hs.1, hs.2, ?_⟩
    have hlen : (outsideCoords r c).length = 12 := rfl
    rw [hlen, beq_iff_eq] at h
    omega
  · rw [if_neg hs] at h
    exact absurd h (by simp)

/-- C5 witness: the amended theorem applied to the treasure room of
`emptyRoomBoard` at `(0,0)`. -/
theorem c5_witness :
    emptyRoomBoard.is_treasure_room 0 0 = true ∧
      ((insideCoords 0 0).countP fun p => (emptyRoomBoard.at' p.1 p.2).isChest) ≤ 1 :=
  ⟨by decide, (c5_treasure_room_necessary emptyRoomBoard 0 0 (by decide)).2.1⟩

/-- C5 counterexample: `emptyRoomBoard` has a chest-free 3×3 Empty block at
`(0,0)` with 11 boundary walls, and `is_treasure_room` returns true although
the block does not contain exactly one Chest. -/
theorem c5_cex :
    emptyRoomBoard.is_treasure_room 0 0 = true ∧
      ((insideCoords 0 0).countP fun p => (emptyRoomBoard.at' p.1 p.2).isChest) = 0 := by
  decide

/-- C10: the Grid Accessor is total — for every pair of (arbitrarily large)
signed coordinates it returns the stored cell when both coordinates are in
`0..8`, and Wall whenever `is_in_bounds` fails; the grid itself is only read
under the bounds guard. -/
theorem c10_at_total (b : Board) (r c : Int) :
    (∀ i j : Fin 8, r = (i : Nat) → c = (j : Nat) → b.at' r c = b.cells i j) ∧
      (b.is_in_bounds r c = false → b.at' r c = Cell.Wall) := by
  constructor
  · rintro i j rfl rfl
    exact at_coe b i j
  · intro h
    apply at_out
    simp only [Board.is_in_bounds, Bool.and_eq_false_iff, decide_eq_false_iff_not] at h
    omega

/-- C10 witness: the accessor at an out-of-range and an in-range coordinate
of the all-Wall board. -/
theorem c10_witness :
    allWallBoard.at' 9 0 = Cell.Wall ∧ allWallBoard.at' 0 0 = Cell.Wall :=
  ⟨(c10_at_total allWallBoard 9 0).2 (by decide),
    ((c10_at_total allWallBoard 0 0).1 0 0 (by decide) (by decide)).trans rfl⟩

/-! ### Claim C8: connectivity is trivial without Empty cells -/

theorem checkCellsLoop_error (b : Board) :
    ∀ (l : List (Fin 8 × Fin 8)) (rooms : List (Int × Int)) (e : BoardError),
      checkCellsLoop b l rooms = Except.error e →
      ∃ r c, e = BoardError.MonsterNotInDeadEnd r c ∨
        e = BoardError.DeadEndWithNoMontster r c ∨
        e = BoardError.NoTreasureRoomForChest r c := by
  intro l
  induction l with
  | nil => intro rooms e h; exact absurd h (by simp [checkCellsLoop])
  | cons p rest ih =>
    intro rooms e h
    simp only [checkCellsLoop] at h
    split at h
    · split at h
      · injection h with h'
        exact ⟨(p.1 : Nat), (p.2 : Nat), Or.inl h'.symm⟩
      · injection h with h'
        exact ⟨(p.1 : Nat), (p.2 : Nat), Or.inr (Or.inl h'.symm)⟩
    · split at h
      · split at h
        · exact ih _ e h
        · injection h with h'
          exact ⟨(p.1 : Nat), (p.2 : Nat), Or.inr (Or.inr h'.symm)⟩
      · exact ih _ e h

/-- C8: a board with no Empty cell never fails `check_solved` with
`UnconnectedCorridors` (the flood fill has no start cell and the validator
returns success before comparing counts); in particular the all-Wall board
with all targets 8 passes the Full Validator. -/
theorem c8_no_empty_no_unconnected :
    (∀ b : Board, (∀ i j, b.cells i j ≠ Cell.Empty) →
        b.check_solved ≠ Except.error BoardError.UnconnectedCorridors) ∧
      allWallBoard.check_solved = Except.ok () := by
  constructor
  · intro b hb
    have hfe : firstEmpty b = none := by
      unfold firstEmpty
      rw [List.find?_eq_none]
      intro p _
      have := hb p.1 p.2
      cases hcell : b.cells p.1 p.2 <;> simp [Cell.isEmpty] <;> simp [hcell] at this ⊢
    unfold Board.check_solved
    split
    · simp
    · split
      · simp
      · split
        · simp
        · split
          · next e he =>
            obtain ⟨r, c, hc⟩ := checkCellsLoop_error b rowMajor [] e he
            rcases hc with h1 | h1 | h1 <;> simp [h1]
          · dsimp only
            split
            · simp
            · rw [hfe]
              simp
  · decide

/-- C8 witness: the first part applied to the all-Wall board. -/
theorem c8_witness :
    allWallBoard.check_solved ≠ Except.error BoardError.UnconnectedCorridors :=
  c8_no_empty_no_unconnected.1 allWallBoard (by decide)

/-! ### Lemmas about `setCell`, `firstUnknown` and `countUnknown` -/

theorem Board.ext' (a b : Board) (hc : a.cells = b.cells)
    (hcc : a.column_counts = b.column_counts) (hr : a.row_counts = b.row_counts) :
    a = b := by
  cases a; cases b; simp_all

theorem setCell_setCell (b : Board) (r c : Fin 8) (v w : Cell) :
    (b.setCell r c v).setCell r c w = b.setCell r c w := by
  apply Board.ext' <;> try rfl
  funext i j
  by_cases h : i = r ∧ j = c <;> simp [Board.setCell, h]

theorem setCell_eq_self (b : Board) (r c : Fin 8) (v : Cell) (h : b.cells r c = v) :
    b.setCell r c v = b := by
  apply Board.ext' <;> try rfl
  funext i j
  by_cases hij : i = r ∧ j = c
  · obtain ⟨rfl, rfl⟩ := hij
    simp [Board.setCell, h]
  · simp [Board.setCell, hij]

theorem setCell_row_counts (b : Board) (r c : Fin 8) (v : Cell) :
    (b.setCell r c v).row_counts = b.row_counts := rfl

theorem setCell_column_counts (b : Board) (r c : Fin 8) (v : Cell) :
    (b.setCell r c v).column_counts = b.column_counts := rfl

theorem mem_rowMajor (p : Fin 8 × Fin 8) : p ∈ rowMajor := by
  unfold rowMajor
  rw [List.mem_flatMap]
  refine ⟨p.1, List.mem_finRange p.1, ?_⟩
  rw [List.mem_map]
  exact ⟨p.2, List.mem_finRange p.2, rfl⟩

theorem firstUnknown_some (b : Board) (p : Fin 8 × Fin 8)
    (h : firstUnknown b = some p) : b.cells p.1 p.2 = Cell.Unknown := by
  have h2 := List.find?_some h
  cases hc : b.cells p.1 p.2 <;> simp [hc, Cell.isUnknown] at h2 ⊢

theorem firstUnknown_none (b : Board) (h : firstUnknown b = none) :
    countUnknown b = 0 := by
  unfold firstUnknown at h
  rw [List.find?_eq_none] at h
  unfold countUnknown
  rw [Finset.card_eq_zero, Finset.filter_eq_empty_iff]
  intro p _
  have := h p (mem_rowMajor p)
  cases hc : b.cells p.1 p.2 <;> simp [hc, Cell.isUnknown] at this ⊢

theorem firstUnknown_of_countUnknown_zero (b : Board) (h : countUnknown b = 0) :
    firstUnknown b = none := by
  unfold countUnknown at h
  rw [Finset.card_eq_zero, Finset.filter_eq_empty_iff] at h
  unfold firstUnknown
  rw [List.find?_eq_none]
  intro p _
  have := h (Finset.mem_univ p)
  cases hc : b.cells p.1 p.2 <;> simp [hc, Cell.isUnknown] at this ⊢

theorem countUnknown_pos (b : Board) (p : Fin 8 × Fin 8)
    (h : b.cells p.1 p.2 = Cell.Unknown) : 1 ≤ countUnknown b := by
  apply Finset.card_pos.mpr
  exact ⟨p, Finset.mem_filter.mpr ⟨Finset.mem_univ p, h⟩⟩

theorem countUnknown_setCell (b : Board) (p : Fin 8 × Fin 8) (v : Cell)
    (hv : v ≠ Cell.Unknown) (hc : b.cells p.1 p.2 = Cell.Unknown) :
    countUnknown (b.setCell p.1 p.2 v) = countUnknown b - 1 := by
  unfold countUnknown
  have hset :
      (Finset.univ.filter fun q : Fin 8 × Fin 8 =>
          (b.setCell p.1 p.2 v).cells q.1 q.2 = Cell.Unknown) =
        (Finset.univ.filter fun q : Fin 8 × Fin 8 =>
          b.cells q.1 q.2 = Cell.Unknown).erase p := by
    ext q
    rw [Finset.mem_erase, Finset.mem_filter, Finset.mem_filter]
    by_cases hq : q.1 = p.1 ∧ q.2 = p.2
    · have hqp : q = p := Prod.ext hq.1 hq.2
      simp [Board.setCell, hq, hv, hqp]
    · have hqp : q ≠ p := by
        intro hcon
        exact hq ⟨by rw [hcon], by rw [hcon]⟩
      simp [Board.setCell, hq, hqp]
  rw [hset, Finset.card_erase_of_mem]
  exact Finset.mem_filter.mpr ⟨Finset.mem_univ p, hc⟩

/-! ### The solver: restoration, fuel stability, soundness -/

theorem solveFuel_restore :
    ∀ (fuel : Nat) (b s : Board), countUnknown b ≤ fuel →
      solveFuel fuel b = (false, s) → s = b := by
  intro fuel
  induction fuel with
  | zero =>
    intro b s _ h
    rw [solveFuel] at h
    split at h <;> (injection h with h1 h2; exact h2.symm)
  | succ fuel ih =>
    intro b s hcu h
    rw [solveFuel] at h
    unfold solveStep at h
    split at h
    · injection h with h1 h2
      exact h2.symm
    · next rc hrc =>
      have hcell := firstUnknown_some b rc hrc
      have hpos := countUnknown_pos b rc hcell
      have hW : countUnknown (b.setCell rc.1 rc.2 Cell.Wall) ≤ fuel := by
        rw [countUnknown_setCell b rc Cell.Wall (by simp) hcell]; omega
      split at h
      · injection h with h1 h2
        exact absurd h1 (by simp)
      · next s1 heq1 =>
        have hs1 : s1 = b.setCell rc.1 rc.2 Cell.Wall := by
          by_cases hok : resultOk (b.setCell rc.1 rc.2 Cell.Wall).maybe_solvable = true
          · rw [if_pos hok] at heq1
            exact ih _ s1 hW heq1
          · rw [if_neg hok] at heq1
            injection heq1 with h1 h2
            exact h2.symm
        rw [hs1, setCell_setCell] at h
        have hE : countUnknown (b.setCell rc.1 rc.2 Cell.Empty) ≤ fuel := by
          rw [countUnknown_setCell b rc Cell.Empty (by simp) hcell]; omega
        split at h
        · injection h with h1 h2
          exact absurd h1 (by simp)
        · next s2 heq2 =>
          have hs2 : s2 = b.setCell rc.1 rc.2 Cell.Empty := by
            by_cases hok : resultOk (b.setCell rc.1 rc.2 Cell.Empty).maybe_solvable = true
            · rw [if_pos hok] at heq2
              exact ih _ s2 hE heq2
            · rw [if_neg hok] at heq2
              injection heq2 with h1 h2
              exact h2.symm
          injection h with h1 h2
          rw [hs2, setCell_setCell, setCell_eq_self b rc.1 rc.2 Cell.Unknown hcell] at h2
          exact h2.symm

theorem solveFuel_stable :
    ∀ (fuel : Nat) (b : Board), countUnknown b ≤ fuel →
      solveFuel (fuel + 1) b = solveFuel fuel b := by
  intro fuel
  induction fuel with
  | zero =>
    intro b hcu
    have hfe := firstUnknown_of_countUnknown_zero b (by omega)
    show solveStep (solveFuel 0) b = solveFuel 0 b
    rw [solveFuel]
    unfold solveStep
    rw [hfe]
  | succ fuel ih =>
    intro b hcu
    show solveStep (solveFuel (fuel + 1)) b = solveStep (solveFuel fuel) b
    unfold solveStep
    cases hfe : firstUnknown b with
    | none => rfl
    | some rc =>
      have hcell := firstUnknown_some b rc hfe
      have hpos := countUnknown_pos b rc hcell
      have hW : countUnknown (b.setCell rc.1 rc.2 Cell.Wall) ≤ fuel := by
        rw [countUnknown_setCell b rc Cell.Wall (by simp) hcell]; omega
      have hEW := ih (b.setCell rc.1 rc.2 Cell.Wall) hW
      dsimp only
      rw [hEW]
      cases hX : (if resultOk (b.setCell rc.1 rc.2 Cell.Wall).maybe_solvable then
          solveFuel fuel (b.setCell rc.1 rc.2 Cell.Wall)
        else (false, b.setCell rc.1 rc.2 Cell.Wall)) with
      | mk ok1 s1 =>
        cases ok1 with
        | true => rfl
        | false =>
          have hs1 : s1 = b.setCell rc.1 rc.2 Cell.Wall := by
            by_cases hok : resultOk (b.setCell rc.1 rc.2 Cell.Wall).maybe_solvable = true
            · rw [if_pos hok] at hX
              exact solveFuel_restore fuel _ s1 hW hX
            · rw [if_neg hok] at hX
              injection hX with h1 h2
              exact h2.symm
          dsimp only
          rw [hs1, setCell_setCell]
          have hE : countUnknown (b.setCell rc.1 rc.2 Cell.Empty) ≤ fuel := by
            rw [countUnknown_setCell b rc Cell.Empty (by simp) hcell]; omega
          rw [ih (b.setCell rc.1 rc.2 Cell.Empty) hE]

theorem solveFuel_run (k : Nat) : ∀ b : Board, solveFuel (countUnknown b + k) b = b.solve := by
  induction k with
  | zero => intro b; rfl
  | succ k ih =>
    intro b
    have h1 : countUnknown b + (k + 1) = (countUnknown b + k) + 1 := rfl
    rw [h1, solveFuel_stable (countUnknown b + k) b (by omega), ih]

theorem solveStep_preserves (P : Board → Prop)
    (recur : Board → Bool × Board) (b : Board)
    (hrec : ∀ b' : Board, P b' → P (recur b').2)
    (hset : ∀ (b' : Board) (r c : Fin 8) (v : Cell), P b' → P (b'.setCell r c v))
    (hP : P b) : P (solveStep recur b).2 := by
  unfold solveStep
  split
  · exact hP
  · next rc hrc =>
    cases hX : (if resultOk (b.setCell rc.1 rc.2 Cell.Wall).maybe_solvable then
        recur (b.setCell rc.1 rc.2 Cell.Wall)
      else (false, b.setCell rc.1 rc.2 Cell.Wall)) with
    | mk ok1 s1 =>
      have hs1 : P s1 := by
        by_cases hok : resultOk (b.setCell rc.1 rc.2 Cell.Wall).maybe_solvable = true
        · rw [if_pos hok] at hX
          have h2 := hrec (b.setCell rc.1 rc.2 Cell.Wall) (hset b rc.1 rc.2 Cell.Wall hP)
          rw [hX] at h2
          exact h2
        · rw [if_neg hok] at hX
          injection hX with h1 h2
          rw [← h2]
          exact hset b rc.1 rc.2 Cell.Wall hP
      cases ok1 with
      | true => exact hs1
      | false =>
        dsimp only
        cases hY : (if resultOk (s1.setCell rc.1 rc.2 Cell.Empty).maybe_solvable then
            recur (s1.setCell rc.1 rc.2 Cell.Empty)
          else (false, s1.setCell rc.1 rc.2 Cell.Empty)) with
        | mk ok2 s2 =>
          have hs2 : P s2 := by
            by_cases hok : resultOk (s1.setCell rc.1 rc.2 Cell.Empty).maybe_solvable = true
            · rw [if_pos hok] at hY
              have h2 := hrec (s1.setCell rc.1 rc.2 Cell.Empty)
                (hset s1 rc.1 rc.2 Cell.Empty hs1)
              rw [hY] at h2
              exact h2
            · rw [if_neg hok] at hY
              injection hY with h1 h2
              rw [← h2]
              exact hset s1 rc.1 rc.2 Cell.Empty hs1
          cases ok2 with
          | true => exact hs2
          | false => exact hset s2 rc.1 rc.2 Cell.Unknown hs2

theorem solveFuel_counts (fuel : Nat) :
    ∀ b : Board, (solveFuel fuel b).2.row_counts = b.row_counts ∧
      (solveFuel fuel b).2.column_counts = b.column_counts := by
  induction fuel with
  | zero =>
    intro b
    rw [solveFuel]
    split <;> exact ⟨rfl, rfl⟩
  | succ fuel ih =>
    intro b
    show (solveStep (solveFuel fuel) b).2.row_counts = b.row_counts ∧
      (solveStep (solveFuel fuel) b).2.column_counts = b.column_counts
    exact solveStep_preserves
      (fun x => x.row_counts = b.row_counts ∧ x.column_counts = b.column_counts)
      (solveFuel fuel) b
      (fun b' hb' => ⟨((ih b').1).trans hb'.1, ((ih b').2).trans hb'.2⟩)
      (fun b' r c v hb' => hb')
      ⟨rfl, rfl⟩

theorem solveStep_sound (recur : Board → Bool × Board) (b s : Board)
    (hrec : ∀ b' s' : Board, recur b' = (true, s') → s'.check_solved = Except.ok ())
    (h : solveStep recur b = (true, s)) : s.check_solved = Except.ok () := by
  unfold solveStep at h
  split at h
  · injection h with h1 h2
    rw [← h2]
    cases hcs : b.check_solved with
    | ok u => cases u; rfl
    | error e => rw [hcs] at h1; exact absurd h1 (by simp [resultOk])
  · next rc hrc =>
    split at h
    · next s' heq =>
      injection h with h1 h2
      rw [← h2]
      by_cases hok : resultOk (b.setCell rc.1 rc.2 Cell.Wall).maybe_solvable = true
      · rw [if_pos hok] at heq
        exact hrec _ s' heq
      · rw [if_neg hok] at heq
        injection heq with h3 h4
        exact absurd h3 (by simp)
    · next s1 heq1 =>
      split at h
      · next s' heq2 =>
        injection h with h1 h2
        rw [← h2]
        by_cases hok : resultOk (s1.setCell rc.1 rc.2 Cell.Empty).maybe_solvable = true
        · rw [if_pos hok] at heq2
          exact hrec _ s' heq2
        · rw [if_neg hok] at heq2
          injection heq2 with h3 h4
          exact absurd h3 (by simp)
      · injection h with h1 h2
        exact absurd h1 (by simp)

theorem solveFuel_sound (fuel : Nat) :
    ∀ b s : Board, solveFuel fuel b = (true, s) → s.check_solved = Except.ok () := by
  induction fuel with
  | zero =>
    intro b s h
    rw [solveFuel] at h
    split at h
    · injection h with h1 h2
      rw [← h2]
      cases hcs : b.check_solved with
      | ok u => cases u; rfl
      | error e => rw [hcs] at h1; exact absurd h1 (by simp [resultOk])
    · injection h with h1 h2
      exact absurd h1 (by simp)
  | succ fuel ih =>
    intro b s h
    exact solveStep_sound (solveFuel fuel) b s ih h

theorem solveLeaves_bound :
    ∀ (fuel : Nat) (b : Board), countUnknown b ≤ fuel →
      solveLeaves fuel b ≤ 2 ^ countUnknown b := by
  intro fuel
  induction fuel with
  | zero =>
    intro b hcu
    rw [solveLeaves]
    split
    · exact Nat.one_le_two_pow
    · exact Nat.zero_le _
  | succ fuel ih =>
    intro b hcu
    rw [solveLeaves]
    split
    · exact Nat.one_le_two_pow
    · next rc hrc =>
      dsimp only
      have hcell := firstUnknown_some b rc hrc
      have hpos := countUnknown_pos b rc hcell
      have hWc : countUnknown (b.setCell rc.1 rc.2 Cell.Wall) = countUnknown b - 1 :=
        countUnknown_setCell b rc Cell.Wall (by simp) hcell
      have hW : countUnknown (b.setCell rc.1 rc.2 Cell.Wall) ≤ fuel := by omega
      have hlW : (if resultOk (b.setCell rc.1 rc.2 Cell.Wall).maybe_solvable then
          solveLeaves fuel (b.setCell rc.1 rc.2 Cell.Wall) else 0) ≤
          2 ^ (countUnknown b - 1) := by
        split
        · have h2 := ih (b.setCell rc.1 rc.2 Cell.Wall) hW
          rw [hWc] at h2
          exact h2
        · exact Nat.zero_le _
      have hmono : (2 : Nat) ^ (countUnknown b - 1) ≤ 2 ^ countUnknown b :=
        Nat.pow_le_pow_right (by omega) (by omega)
      split
      · exact le_trans hlW hmono
      · next s1 heq1 =>
        have hs1 : s1 = b.setCell rc.1 rc.2 Cell.Wall := by
          by_cases hok : resultOk (b.setCell rc.1 rc.2 Cell.Wall).maybe_solvable = true
          · rw [if_pos hok] at heq1
            exact solveFuel_restore fuel _ s1 hW heq1
          · rw [if_neg hok] at heq1
            injection heq1 with h1 h2
            exact h2.symm
        have hEc : countUnknown (s1.setCell rc.1 rc.2 Cell.Empty) = countUnknown b - 1 := by
          rw [hs1, setCell_setCell]
          exact countUnknown_setCell b rc Cell.Empty (by simp) hcell
        have hE : countUnknown (s1.setCell rc.1 rc.2 Cell.Empty) ≤ fuel := by omega
        have hlE : (if resultOk (s1.setCell rc.1 rc.2 Cell.Empty).maybe_solvable then
            solveLeaves fuel (s1.setCell rc.1 rc.2 Cell.Empty) else 0) ≤
            2 ^ (countUnknown b - 1) := by
          split
          · have h2 := ih (s1.setCell rc.1 rc.2 Cell.Empty) hE
            rw [hEc] at h2
            exact h2
          · exact Nat.zero_le _
        have h2 : 2 ^ (countUnknown b - 1) + 2 ^ (countUnknown b - 1) =
            2 ^ countUnknown b := by
          obtain ⟨k, hk⟩ : ∃ k, countUnknown b = k + 1 :=
            ⟨countUnknown b - 1, by omega⟩
          rw [hk, Nat.add_sub_cancel, pow_succ]
          omega
        omega

/-! ### Claim theorems: the backtracking solver -/

/-- C2: if `solve` succeeds on a board, then `check_solved` on the board as
left by `solve` returns success (the base case delegates to the Full
Validator and success propagates without further mutation). -/
theorem c2_solve_sound (b s : Board) (h : b.solve = (true, s)) :
    s.check_solved = Except.ok () :=
  solveFuel_sound (countUnknown b) b s h

/-- C2 witness: `solve` fills the one Unknown cell of `oneUnknownBoard` with
Wall and the resulting all-Wall board validates. -/
theorem c2_witness :
    oneUnknownBoard.solve = (true, allWallBoard) ∧
      allWallBoard.check_solved = Except.ok () :=
  ⟨by decide, c2_solve_sound oneUnknownBoard allWallBoard (by decide)⟩

/-- C3: when `solve` fails it restores the board — every cell equals its
value before the call — and the row and column count targets are unchanged
in every case (success or failure). -/
theorem c3_solve_atomic (b : Board) :
    (∀ s : Board, b.solve = (false, s) → s = b) ∧
      (b.solve).2.row_counts = b.row_counts ∧
      (b.solve).2.column_counts = b.column_counts :=
  ⟨fun s h => solveFuel_restore (countUnknown b) b s (le_refl _) h,
   (solveFuel_counts (countUnknown b) b).1,
   (solveFuel_counts (countUnknown b) b).2⟩

/-- C3 witness: the atomicity theorem applied to a board the solver fails
on (`oneUnknownBadBoard`, whose row target 0 is unsatisfiable). -/
theorem c3_witness :
    (oneUnknownBadBoard.solve).2 = oneUnknownBadBoard ∧
      (oneUnknownBadBoard.solve).2.row_counts = oneUnknownBadBoard.row_counts :=
  ⟨(c3_solve_atomic oneUnknownBadBoard).1 (oneUnknownBadBoard.solve).2 (by decide),
   (c3_solve_atomic oneUnknownBadBoard).2.1⟩

/-- C9: `solve` terminates — a recursion budget of `countUnknown b` levels
computes the fixpoint (any budget at least `countUnknown b` gives the same
result, so the recursion depth is bounded by the number of Unknown cells);
the search performs at most `2 ^ countUnknown b` base-case (Full Validator)
evaluations; and both tentative assignments at the first Unknown cell
strictly decrease the number of Unknown cells. -/
theorem c9_solve_terminates (b : Board) (fuel : Nat) (h : countUnknown b ≤ fuel) :
    solveFuel fuel b = b.solve ∧
      solveLeaves fuel b ≤ 2 ^ countUnknown b ∧
      ∀ rc : Fin 8 × Fin 8, firstUnknown b = some rc →
        countUnknown (b.setCell rc.1 rc.2 Cell.Wall) < countUnknown b ∧
        countUnknown (b.setCell rc.1 rc.2 Cell.Empty) < countUnknown b := by
  refine ⟨?_, solveLeaves_bound fuel b h, ?_⟩
  · have hk := solveFuel_run (fuel - countUnknown b) b
    rw [show countUnknown b + (fuel - countUnknown b) = fuel from by omega] at hk
    exact hk
  · intro rc hrc
    have hcell := firstUnknown_some b rc hrc
    have hpos := countUnknown_pos b rc hcell
    rw [countUnknown_setCell b rc Cell.Wall (by simp) hcell,
      countUnknown_setCell b rc Cell.Empty (by simp) hcell]
    omega

/-- C9 witness: the termination theorem applied to `oneUnknownBoard` with
budget 1. -/
theorem c9_witness :
    solveFuel 1 oneUnknownBoard = oneUnknownBoard.solve ∧
      solveLeaves 1 oneUnknownBoard ≤ 2 ^ countUnknown oneUnknownBoard :=
  ⟨(c9_solve_terminates oneUnknownBoard 1 (by decide)).1,
   (c9_solve_terminates oneUnknownBoard 1 (by decide)).2.1⟩

/-! ### Helpers for the pruning-soundness theorem (claim C1) -/

theorem isWall_iff (x : Cell) : x.isWall = true ↔ x = Cell.Wall := by
  cases x <;> simp [Cell.isWall]

theorem isEmpty_iff (x : Cell) : x.isEmpty = true ↔ x = Cell.Empty := by
  cases x <;> simp [Cell.isEmpty]

theorem isUnknown_iff (x : Cell) : x.isUnknown = true ↔ x = Cell.Unknown := by
  cases x <;> simp [Cell.isUnknown]

theorem isMonster_iff (x : Cell) : x.isMonster = true ↔ x = Cell.Monster := by
  cases x <;> simp [Cell.isMonster]

theorem isChest_iff (x : Cell) : x.isChest = true ↔ x = Cell.Chest := by
  cases x <;> simp [Cell.isChest]

theorem completes_cells (P C : Board) (h : completes P C) (i j : Fin 8)
    (hne : P.cells i j ≠ Cell.Unknown) : P.cells i j = C.cells i j :=
  (h.2.2.2 i j).resolve_left hne

theorem completes_at (P C : Board) (h : completes P C) (r c : Int) :
    P.at' r c = C.at' r c ∨ P.at' r c = Cell.Unknown := by
  unfold Board.at'
  split
  · exact (h.2.2.2 _ _).symm.imp_right id |>.symm.imp id id |>.elim
      (fun h1 => Or.inr h1) (fun h1 => Or.inl h1)
  · exact Or.inl rfl

theorem completes_at_of_ne (P C : Board) (h : completes P C) (r c : Int)
    (hne : P.at' r c ≠ Cell.Unknown) : P.at' r c = C.at' r c :=
  (completes_at P C h r c).resolve_right hne

theorem complete_at_ne_unknown (P C : Board) (h : completes P C) (r c : Int) :
    C.at' r c ≠ Cell.Unknown := by
  unfold Board.at'
  split
  · exact h.2.2.1 _ _
  · simp

theorem countP_or_le {α : Type} (q r : α → Bool) :
    ∀ l : List α, (l.countP fun a => q a || r a) ≤ l.countP q + l.countP r := by
  intro l
  induction l with
  | nil => simp
  | cons a t ih =>
    rw [List.countP_cons, List.countP_cons, List.countP_cons]
    cases hqa : q a <;> cases hra : r a <;> simp [hqa, hra] <;> omega

theorem countP_le_add {α : Type} (p q r : α → Bool) (l : List α)
    (h : ∀ a ∈ l, p a = true → q a = true ∨ r a = true) :
    l.countP p ≤ l.countP q + l.countP r := by
  refine le_trans (List.countP_mono_left ?_) (countP_or_le q r l)
  intro a ha hp
  rcases h a ha hp with h1 | h1 <;> simp [h1]

theorem countP_disjoint_le {α : Type} (p q : α → Bool)
    (hpq : ∀ a, p a = true → q a = true → False) :
    ∀ l : List α, l.countP p + l.countP q ≤ l.length := by
  intro l
  induction l with
  | nil => simp
  | cons a t ih =>
    rw [List.countP_cons, List.countP_cons, List.length_cons]
    cases hpa : p a <;> cases hqa : q a <;> simp [hpa, hqa] <;> try omega
    exact (hpq a hpa hqa).elim

theorem rowWalls_le (P C : Board) (h : completes P C) (i : Fin 8) :
    rowWalls P i ≤ rowWalls C i := by
  apply List.countP_mono_left
  intro j _ hw
  rw [isWall_iff] at hw ⊢
  rw [← completes_cells P C h i j (by rw [hw]; simp)]
  exact hw

theorem rowWalls_ge (P C : Board) (h : completes P C) (i : Fin 8) :
    rowWalls C i ≤ rowWalls P i + rowUnknowns P i := by
  apply countP_le_add
  intro j _ hw
  rw [isWall_iff] at hw
  rcases h.2.2.2 i j with h1 | h1
  · right; rw [isUnknown_iff]; exact h1
  · left; rw [isWall_iff, h1, hw]

theorem colWalls_le (P C : Board) (h : completes P C) (j : Fin 8) :
    colWalls P j ≤ colWalls C j := by
  apply List.countP_mono_left
  intro i _ hw
  rw [isWall_iff] at hw ⊢
  rw [← completes_cells P C h i j (by rw [hw]; simp)]
  exact hw

theorem colWalls_ge (P C : Board) (h : completes P C) (j : Fin 8) :
    colWalls C j ≤ colWalls P j + colUnknowns P j := by
  apply countP_le_add
  intro i _ hw
  rw [isWall_iff] at hw
  rcases h.2.2.2 i j with h1 | h1
  · right; rw [isUnknown_iff]; exact h1
  · left; rw [isWall_iff, h1, hw]

theorem rows_acceptable_sound (P C : Board) (h : completes P C)
    (hrow : ∀ i, rowWalls C i = C.row_counts i) : P.rows_acceptable = none := by
  unfold Board.rows_acceptable
  rw [List.find?_eq_none]
  intro i _
  have h1 := rowWalls_le P C h i
  have h2 := rowWalls_ge P C h i
  have h3 := hrow i
  have h4 := h.1 i
  simp only [Bool.not_eq_true', Bool.not_eq_false, Bool.and_eq_true, decide_eq_true_eq]
  constructor <;> omega

theorem cols_acceptable_sound (P C : Board) (h : completes P C)
    (hcol : ∀ j, colWalls C j = C.column_counts j) : P.cols_acceptable = none := by
  unfold Board.cols_acceptable
  rw [List.find?_eq_none]
  intro j _
  have h1 := colWalls_le P C h j
  have h2 := colWalls_ge P C h j
  have h3 := hcol j
  have h4 := h.2.1 j
  simp only [Bool.not_eq_true', Bool.not_eq_false, Bool.and_eq_true, decide_eq_true_eq]
  constructor <;> omega

theorem checkCellsLoop_ok (b : Board) :
    ∀ (l : List (Fin 8 × Fin 8)) (rooms rooms' : List (Int × Int)),
      checkCellsLoop b l rooms = Except.ok rooms' →
      ∀ p ∈ l,
        ((b.cells p.1 p.2).isMonster = b.is_dead_end ((p.1 : Nat) : Int) ((p.2 : Nat) : Int)) ∧
        ((b.cells p.1 p.2).isChest = true →
          ∃ q ∈ candidates ((p.1 : Nat) : Int) ((p.2 : Nat) : Int),
            b.is_treasure_room q.1 q.2 = true) := by
  intro l
  induction l with
  | nil =>
    intro rooms rooms' h p hp
    exact absurd hp (List.not_mem_nil p)
  | cons a t ih =>
    intro rooms rooms' h p hp
    simp only [checkCellsLoop] at h
    rw [List.mem_cons] at hp
    split at h
    · split at h <;> exact absurd h (by simp)
    · next hcond =>
      split at h
      · next hchest =>
        split at h
        · next room hroom =>
          rcases hp with rfl | hp
          · refine ⟨not_ne_iff.mp hcond, fun _ => ?_⟩
            have hprop := List.find?_some hroom
            exact ⟨room, List.mem_of_find?_eq_some hroom, by simpa using hprop⟩
          · exact ih _ rooms' h p hp
        · exact absurd h (by simp)
      · next hchest =>
        rcases hp with rfl | hp
        · exact ⟨not_ne_iff.mp hcond, fun hch => absurd hch hchest⟩
        · exact ih _ rooms' h p hp

theorem check_solved_ok (b : Board) (h : b.check_solved = Except.ok ()) :
    (∀ i, rowWalls b i = b.row_counts i) ∧
      (∀ j, colWalls b j = b.column_counts j) ∧
      (∀ p : Fin 8 × Fin 8,
        ((b.cells p.1 p.2).isMonster = b.is_dead_end ((p.1 : Nat) : Int) ((p.2 : Nat) : Int)) ∧
        ((b.cells p.1 p.2).isChest = true →
          ∃ q ∈ candidates ((p.1 : Nat) : Int) ((p.2 : Nat) : Int),
            b.is_treasure_room q.1 q.2 = true)) ∧
      (∀ F : Fin 8 × Fin 8, firstEmpty b = some F →
        floodFuel b floodLimit [F] (fun _ _ => false) 0 = totalNonWall b) := by
  unfold Board.check_solved at h
  split at h
  · exact absurd h (by simp)
  · split at h
    · exact absurd h (by simp)
    · next hrows =>
      split at h
      · exact absurd h (by simp)
      · next hcols =>
        split at h
        · exact absurd h (by simp)
        · next rooms hloop =>
          dsimp only at h
          split at h
          · exact absurd h (by simp)
          · next h2x2 =>
            refine ⟨?_, ?_,
              fun p => checkCellsLoop_ok b rowMajor [] rooms hloop p (mem_rowMajor p), ?_⟩
            · intro i
              rw [List.find?_eq_none] at hrows
              have h2 := hrows i (List.mem_finRange i)
              simpa using h2
            · intro j
              rw [List.find?_eq_none] at hcols
              have h2 := hcols j (List.mem_finRange j)
              simpa using h2
            · intro F hF
              rw [hF] at h
              simp only [Option.toList] at h
              split at h
              · next heq => simpa using heq
              · exact absurd h (by simp)

theorem maybeCellsLoop_ok (b : Board) :
    ∀ l : List (Fin 8 × Fin 8),
      (∀ p ∈ l,
        ((b.cells p.1 p.2).isMonster = true →
          b.maybe_dead_end ((p.1 : Nat) : Int) ((p.2 : Nat) : Int) = true) ∧
        ((b.cells p.1 p.2).isMonster = false →
          b.is_dead_end ((p.1 : Nat) : Int) ((p.2 : Nat) : Int) = false) ∧
        ((b.cells p.1 p.2).isChest = true →
          ∃ q ∈ candidates ((p.1 : Nat) : Int) ((p.2 : Nat) : Int),
            b.maybe_treasure_room q.1 q.2 = true)) →
      maybeCellsLoop b l = Except.ok () := by
  intro l
  induction l with
  | nil => intro _; rfl
  | cons a t ih =>
    intro hall
    obtain ⟨h1, h2, h3⟩ := hall a (List.mem_cons_self a t)
    have ht := ih fun p hp => hall p (List.mem_cons_of_mem a hp)
    have hc1 : ¬(((b.cells a.1 a.2).isMonster &&
        !b.maybe_dead_end ((a.1 : Nat) : Int) ((a.2 : Nat) : Int)) = true) := by
      cases hm : (b.cells a.1 a.2).isMonster
      · simp
      · simp [h1 hm]
    have hc2 : ¬((!(b.cells a.1 a.2).isMonster &&
        b.is_dead_end ((a.1 : Nat) : Int) ((a.2 : Nat) : Int)) = true) := by
      cases hm : (b.cells a.1 a.2).isMonster
      · simp [h2 hm]
      · simp
    simp only [maybeCellsLoop]
    rw [if_neg hc1, if_neg hc2]
    by_cases hch : (b.cells a.1 a.2).isChest = true
    · rw [if_pos hch, if_pos]
      · exact ht
      · rw [List.find?_isSome]
        obtain ⟨q, hqmem, hq⟩ := h3 hch
        exact ⟨q, hqmem, hq⟩
    · rw [if_neg hch]
      exact ht

theorem maybe_dead_end_of_completes (P C : Board) (h : completes P C) (r c : Int)
    (hde : C.is_dead_end r c = true) : P.maybe_dead_end r c = true := by
  unfold Board.is_dead_end at hde
  split at hde
  · exact absurd hde (by simp)
  · rw [beq_iff_eq] at hde
    unfold Board.maybe_dead_end
    simp only [Bool.and_eq_true, decide_eq_true_eq]
    have hwle : ((neighborsOf r c).countP fun p => (P.at' p.1 p.2).isWall) ≤
        ((neighborsOf r c).countP fun p => (C.at' p.1 p.2).isWall) := by
      apply List.countP_mono_left
      intro q _ hw
      rw [isWall_iff] at hw ⊢
      rw [← completes_at_of_ne P C h q.1 q.2 (by rw [hw]; simp)]
      exact hw
    have hele : ((neighborsOf r c).countP fun p => (P.at' p.1 p.2).isEmpty) ≤
        ((neighborsOf r c).countP fun p => (C.at' p.1 p.2).isEmpty) := by
      apply List.countP_mono_left
      intro q _ hw
      rw [isEmpty_iff] at hw ⊢
      rw [← completes_at_of_ne P C h q.1 q.2 (by rw [hw]; simp)]
      exact hw
    have hdisj := countP_disjoint_le (fun p : Int × Int => (C.at' p.1 p.2).isEmpty)
      (fun p : Int × Int => (C.at' p.1 p.2).isWall)
      (fun q he hw => by
        rw [isEmpty_iff] at he
        rw [isWall_iff] at hw
        rw [he] at hw
        exact absurd hw (by simp))
      (neighborsOf r c)
    have hlen : (neighborsOf r c).length = 4 := rfl
    constructor <;> omega

theorem maybe_treasure_of_completes (P C : Board) (h : completes P C) (r c : Int)
    (ht : C.is_treasure_room r c = true) : P.maybe_treasure_room r c = true := by
  unfold Board.is_treasure_room at ht
  by_cases hs : insideScanExact C (insideCoords r c) false = true
  · rw [if_pos hs] at ht
    rw [insideScanExact_iff] at hs
    simp only [if_neg (Bool.false_ne_true), Nat.add_zero] at hs
    have hlen : (outsideCoords r c).length = 12 := rfl
    rw [hlen, beq_iff_eq] at ht
    have hscan : insideScanRelaxed P (insideCoords r c) false = true := by
      rw [insideScanRelaxed_iff]
      simp only [if_neg (Bool.false_ne_true), Nat.add_zero]
      constructor
      · intro q hq
        rcases completes_at P C h q.1 q.2 with h1 | h1
        · rcases hs.1 q hq with h2 | h2
          · left; rw [h1, h2]
          · right; right; rw [h1, h2]
        · right; left; exact h1
      · refine le_trans ?_ hs.2
        apply List.countP_mono_left
        intro q _ hc
        rw [isChest_iff] at hc ⊢
        rw [← completes_at_of_ne P C h q.1 q.2 (by rw [hc]; simp)]
        exact hc
    unfold Board.maybe_treasure_room
    rw [if_pos hscan]
    dsimp only
    rw [hlen]
    simp only [Bool.and_eq_true, decide_eq_true_eq]
    have hwle : ((outsideCoords r c).countP fun p => (P.at' p.1 p.2).isWall) ≤
        ((outsideCoords r c).countP fun p => (C.at' p.1 p.2).isWall) := by
      apply List.countP_mono_left
      intro q _ hw
      rw [isWall_iff] at hw ⊢
      rw [← completes_at_of_ne P C h q.1 q.2 (by rw [hw]; simp)]
      exact hw
    have hwge : ((outsideCoords r c).countP fun p => (C.at' p.1 p.2).isWall) ≤
        ((outsideCoords r c).countP fun p => (P.at' p.1 p.2).isWall) +
          ((outsideCoords r c).countP fun p => (P.at' p.1 p.2).isUnknown) := by
      apply countP_le_add
      intro q _ hw
      rcases completes_at P C h q.1 q.2 with h1 | h1
      · left; rw [h1]; exact hw
      · right; rw [isUnknown_iff]; exact h1
    constructor <;> omega
  · rw [if_neg hs] at ht
    exact absurd ht (by simp)

theorem mem_insideCoords_of_bounds (a b x y : Int) (h1 : a ≤ x) (h2 : x ≤ a + 2)
    (h3 : b ≤ y) (h4 : y ≤ b + 2) : (x, y) ∈ insideCoords a b := by
  simp [insideCoords, Prod.ext_iff]
  omega

theorem candidates_bounds (r c : Int) (q : Int × Int) (hq : q ∈ candidates r c) :
    q.1 ≤ r ∧ r ≤ q.1 + 2 ∧ q.2 ≤ c ∧ c ≤ q.2 + 2 := by
  simp [candidates, Prod.ext_iff] at hq
  omega

theorem neighborsOf_symm (x y r c : Int) (h : (x, y) ∈ neighborsOf r c) :
    (r, c) ∈ neighborsOf x y := by
  simp [neighborsOf, Prod.ext_iff] at h ⊢
  omega

theorem interior_neighbor (a b x y : Int) (hx1 : a ≤ x) (hx2 : x ≤ a + 2)
    (hy1 : b ≤ y) (hy2 : y ≤ b + 2) :
    ∃ n ∈ neighborsOf x y, n ∈ insideCoords a b := by
  by_cases hxa : x = a
  · refine ⟨(x + 1, y), by simp [neighborsOf], ?_⟩
    exact mem_insideCoords_of_bounds a b (x + 1) y (by omega) (by omega) (by omega) (by omega)
  · refine ⟨(x - 1, y), by simp [neighborsOf], ?_⟩
    exact mem_insideCoords_of_bounds a b (x - 1) y (by omega) (by omega) (by omega) (by omega)

/-! ### Flood-fill lemmas -/

theorem floodFuel_nil (b : Board) (fuel : Nat) (seen : Fin 8 → Fin 8 → Bool) (count : Nat) :
    floodFuel b fuel [] seen count = count := by
  cases fuel <;> rfl

theorem floodFuel_zero_cons (b : Board) (r c : Fin 8) (rest : List (Fin 8 × Fin 8))
    (seen : Fin 8 → Fin 8 → Bool) (count : Nat) :
    floodFuel b 0 ((r, c) :: rest) seen count = count := rfl

theorem floodFuel_succ_cons (b : Board) (fuel : Nat) (r c : Fin 8)
    (rest : List (Fin 8 × Fin 8)) (seen : Fin 8 → Fin 8 → Bool) (count : Nat) :
    floodFuel b (fuel + 1) ((r, c) :: rest) seen count =
      if seen r c then
        floodFuel b fuel rest seen count
      else
        floodFuel b fuel ((pushNeighbors b ((r : Nat) : Int) ((c : Nat) : Int)).reverse ++ rest)
          (updateSeen seen r c) (count + 1) := rfl

theorem seenCard_init : seenCard (fun _ _ => false) = 0 := by decide

theorem seenCard_update (seen : Fin 8 → Fin 8 → Bool) (r c : Fin 8) (h : seen r c = false) :
    seenCard (updateSeen seen r c) = seenCard seen + 1 := by
  unfold seenCard
  have hset : (Finset.univ.filter fun p : Fin 8 × Fin 8 => updateSeen seen r c p.1 p.2 = true) =
      insert (r, c) (Finset.univ.filter fun p : Fin 8 × Fin 8 => seen p.1 p.2 = true) := by
    ext q
    rw [Finset.mem_insert, Finset.mem_filter, Finset.mem_filter]
    unfold updateSeen
    by_cases hq : q.1 = r ∧ q.2 = c
    · have hqp : q = (r, c) := Prod.ext hq.1 hq.2
      simp [hq, hqp]
    · have hqp : q ≠ (r, c) := fun hc => hq ⟨by rw [hc], by rw [hc]⟩
      simp [hq, hqp]
  rw [hset, Finset.card_insert_of_not_mem]
  simp [h]

theorem unseenCard_update (seen : Fin 8 → Fin 8 → Bool) (r c : Fin 8) (h : seen r c = false) :
    unseenCard (updateSeen seen r c) + 1 = unseenCard seen := by
  unfold unseenCard
  have hmem : (r, c) ∈ Finset.univ.filter fun p : Fin 8 × Fin 8 => seen p.1 p.2 = false := by
    simp [h]
  have hset : (Finset.univ.filter fun p : Fin 8 × Fin 8 => updateSeen seen r c p.1 p.2 = false) =
      (Finset.univ.filter fun p : Fin 8 × Fin 8 => seen p.1 p.2 = false).erase (r, c) := by
    ext q
    rw [Finset.mem_erase, Finset.mem_filter, Finset.mem_filter]
    unfold updateSeen
    by_cases hq : q.1 = r ∧ q.2 = c
    · have hqp : q = (r, c) := Prod.ext hq.1 hq.2
      simp [hq, hqp]
    · have hqp : q ≠ (r, c) := fun hc => hq ⟨by rw [hc], by rw [hc]⟩
      simp [hq, hqp]
  rw [hset, Finset.card_erase_of_mem hmem]
  have hpos := Finset.card_pos.mpr ⟨(r, c), hmem⟩
  omega

theorem mem_pushNeighbors (b : Board) (r c : Int) (p : Fin 8 × Fin 8)
    (hp : p ∈ pushNeighbors b r c) :
    b.cells p.1 p.2 ≠ Cell.Wall ∧
      ((((p.1 : Nat) : Int), ((p.2 : Nat) : Int)) ∈ neighborsOf r c) := by
  unfold pushNeighbors at hp
  rw [List.mem_filterMap] at hp
  obtain ⟨q, hqmem, hq⟩ := hp
  by_cases hb : 0 ≤ q.1 ∧ q.1 < 8 ∧ 0 ≤ q.2 ∧ q.2 < 8
  · rw [dif_pos hb] at hq
    by_cases hw : (b.cells ⟨q.1.toNat, by omega⟩ ⟨q.2.toNat, by omega⟩).isWall = true
    · rw [if_pos hw] at hq
      exact absurd hq (by simp)
    · rw [if_neg hw] at hq
      injection hq with hq
      constructor
      · rw [← hq]
        intro hcon
        apply hw
        rw [isWall_iff]
        exact hcon
      · have hqe : ((((p.1 : Nat) : Int)), (((p.2 : Nat) : Int))) = q := by
          rw [← hq]
          refine Prod.ext ?_ ?_ <;> simp <;> omega
        rw [hqe]
        exact hqmem
  · rw [dif_neg hb] at hq
    exact absurd hq (by simp)

theorem pushNeighbors_nil (b : Board) (r c : Int)
    (h : ∀ n ∈ neighborsOf r c, b.at' n.1 n.2 = Cell.Wall) :
    pushNeighbors b r c = [] := by
  unfold pushNeighbors
  rw [List.filterMap_eq_nil_iff]
  intro q hq
  have hw := h q hq
  by_cases hb : 0 ≤ q.1 ∧ q.1 < 8 ∧ 0 ≤ q.2 ∧ q.2 < 8
  · unfold Board.at' at hw
    rw [dif_pos hb] at hw
    have hcw : (b.cells ⟨q.1.toNat, by omega⟩ ⟨q.2.toNat, by omega⟩).isWall = true := by
      rw [isWall_iff]
      exact hw
    rw [dif_pos hb, if_pos hcw]
  · rw [dif_neg hb]

theorem floodFuel_bound (b : Board) (X : Fin 8 × Fin 8)
    (hX4 : ∀ n ∈ neighborsOf ((X.1 : Nat) : Int) ((X.2 : Nat) : Int),
      b.at' n.1 n.2 = Cell.Wall) :
    ∀ (fuel : Nat) (stack : List (Fin 8 × Fin 8)) (seen : Fin 8 → Fin 8 → Bool) (count : Nat),
      (∀ p ∈ stack, b.cells p.1 p.2 ≠ Cell.Wall ∧ p ≠ X) →
      (∀ p : Fin 8 × Fin 8, seen p.1 p.2 = true → b.cells p.1 p.2 ≠ Cell.Wall ∧ p ≠ X) →
      count = seenCard seen →
      floodFuel b fuel stack seen count ≤
        (Finset.univ.filter fun q : Fin 8 × Fin 8 =>
          b.cells q.1 q.2 ≠ Cell.Wall ∧ q ≠ X).card := by
  intro fuel
  induction fuel with
  | zero =>
    intro stack seen count hstack hseen hcount
    have hle : count ≤ (Finset.univ.filter fun q : Fin 8 × Fin 8 =>
        b.cells q.1 q.2 ≠ Cell.Wall ∧ q ≠ X).card := by
      rw [hcount]
      apply Finset.card_le_card
      intro q hq
      rw [Finset.mem_filter] at hq ⊢
      exact ⟨hq.1, hseen q hq.2⟩
    cases stack with
    | nil => rw [floodFuel_nil]; exact hle
    | cons p rest =>
      obtain ⟨r, c⟩ := p
      rw [floodFuel_zero_cons]
      exact hle
  | succ fuel ih =>
    intro stack seen count hstack hseen hcount
    cases stack with
    | nil =>
      rw [floodFuel_nil, hcount]
      apply Finset.card_le_card
      intro q hq
      rw [Finset.mem_filter] at hq ⊢
      exact ⟨hq.1, hseen q hq.2⟩
    | cons p rest =>
      obtain ⟨r, c⟩ := p
      have hhead := hstack (r, c) (List.mem_cons_self _ _)
      rw [floodFuel_succ_cons]
      split
      · exact ih rest seen count (fun q hq => hstack q (List.mem_cons_of_mem _ hq)) hseen hcount
      · next hnew =>
        have hnew' : seen r c = false := by
          cases hsc : seen r c
          · rfl
          · exact absurd hsc hnew
        apply ih
        · intro q hq
          rw [List.mem_append] at hq
          rcases hq with hq | hq
          · rw [List.mem_reverse] at hq
            obtain ⟨hqw, hqnb⟩ := mem_pushNeighbors b _ _ q hq
            refine ⟨hqw, ?_⟩
            intro hqX
            rw [hqX] at hqnb
            have hsym := neighborsOf_symm _ _ _ _ hqnb
            have hwall := hX4 _ hsym
            rw [at_coe] at hwall
            exact hhead.1 hwall
          · exact hstack q (List.mem_cons_of_mem _ hq)
        · intro q hq
          unfold updateSeen at hq
          by_cases hqrc : q.1 = r ∧ q.2 = c
          · have hqp : q = (r, c) := Prod.ext hqrc.1 hqrc.2
            rw [hqp]
            exact hhead
          · rw [if_neg hqrc] at hq
            exact hseen q hq
        · rw [seenCard_update seen r c hnew', hcount]

theorem floodFuel_stable (b : Board) :
    ∀ (fuel : Nat) (stack : List (Fin 8 × Fin 8)) (seen : Fin 8 → Fin 8 → Bool) (count : Nat),
      5 * unseenCard seen + stack.length ≤ fuel →
      floodFuel b (fuel + 1) stack seen count = floodFuel b fuel stack seen count := by
  intro fuel
  induction fuel with
  | zero =>
    intro stack seen count hm
    cases stack with
    | nil => rw [floodFuel_nil, floodFuel_nil]
    | cons p rest =>
      rw [List.length_cons] at hm
      omega
  | succ fuel ih =>
    intro stack seen count hm
    cases stack with
    | nil => rw [floodFuel_nil, floodFuel_nil]
    | cons p rest =>
      obtain ⟨r, c⟩ := p
      rw [floodFuel_succ_cons, floodFuel_succ_cons]
      rw [List.length_cons] at hm
      split
      · apply ih
        omega
      · next hnew =>
        have hnew' : seen r c = false := by
          cases hsc : seen r c
          · rfl
          · exact absurd hsc hnew
        have hu := unseenCard_update seen r c hnew'
        have hplen : (pushNeighbors b ((r : Nat) : Int) ((c : Nat) : Int)).length ≤ 4 := by
          unfold pushNeighbors
          exact List.length_filterMap_le _ _
        apply ih
        rw [List.length_append, List.length_reverse]
        omega

theorem nodup_rowMajor : rowMajor.Nodup := by decide

theorem totalNonWall_eq (b : Board) :
    totalNonWall b =
      (Finset.univ.filter fun q : Fin 8 × Fin 8 => b.cells q.1 q.2 ≠ Cell.Wall).card := by
  unfold totalNonWall
  rw [List.countP_eq_length_filter]
  rw [← List.toFinset_card_of_nodup (nodup_rowMajor.filter _)]
  congr 1
  ext q
  rw [List.mem_toFinset, List.mem_filter, Finset.mem_filter]
  constructor
  · rintro ⟨-, hq⟩
    refine ⟨Finset.mem_univ q, ?_⟩
    intro hcon
    rw [hcon] at hq
    simp [Cell.isWall] at hq
  · rintro ⟨-, hq⟩
    refine ⟨mem_rowMajor q, ?_⟩
    cases hc : b.cells q.1 q.2
    · simp [Cell.isWall]
    · simp [Cell.isWall]
    · exact absurd hc hq
    · simp [Cell.isWall]
    · simp [Cell.isWall]

theorem floodFuel_singleton_closed (b : Board) (p : Fin 8 × Fin 8)
    (hpush : pushNeighbors b ((p.1 : Nat) : Int) ((p.2 : Nat) : Int) = []) :
    floodFuel b floodLimit [p] (fun _ _ => false) 0 = 1 := by
  obtain ⟨r, c⟩ := p
  dsimp only at hpush
  show floodFuel b (320 + 1) [(r, c)] (fun _ _ => false) 0 = 1
  rw [floodFuel_succ_cons, if_neg (by simp), hpush]
  rw [show ((([] : List (Fin 8 × Fin 8)).reverse) ++ []) = [] from rfl]
  rw [floodFuel_nil]

/-! ### Claim C1: soundness of pruning -/

/-- C1 counterexample: `pruneCexPartial` has a completion
(`pruneCexComplete`, a single Empty cell enclosed by walls) that passes the
Full Validator, yet the Partial Feasibility Checker rejects it — the claim
as stated is false on the code. -/
theorem c1_cex :
    completes pruneCexPartial pruneCexComplete ∧
      (∃ p : Fin 8 × Fin 8, pruneCexPartial.cells p.1 p.2 = Cell.Unknown) ∧
      pruneCexComplete.check_solved = Except.ok () ∧
      pruneCexPartial.maybe_solvable ≠ Except.ok () :=
  ⟨by decide, ⟨(1, 0), by decide⟩, by decide, by decide⟩

/-- C1 (amended): for every partial board `P`, if some completion of `P`
with **at least two non-Wall cells** passes the Full Validator, then
`maybe_solvable` does not reject `P`.  (Unrestricted, the claim fails: see
`c1_cex`, whose only passing completion is a lone enclosed Empty cell.) -/
theorem c1_prune_sound_amended (P C : Board) (hcomp : completes P C)
    (hpart : ∃ p : Fin 8 × Fin 8, P.cells p.1 p.2 = Cell.Unknown)
    (htwo : 2 ≤ totalNonWall C)
    (hok : C.check_solved = Except.ok ()) :
    P.maybe_solvable = Except.ok () := by
  obtain ⟨hrows, hcols, hscan, hconn⟩ := check_solved_ok C hok
  have hra := rows_acceptable_sound P C hcomp hrows
  have hca := cols_acceptable_sound P C hcomp hcols
  unfold Board.maybe_solvable
  rw [hra, hca]
  apply maybeCellsLoop_ok
  intro p _
  refine ⟨?_, ?_, ?_⟩
  · -- a Monster cell of P still may sit in a dead end
    intro hm
    rw [isMonster_iff] at hm
    have hmC : C.cells p.1 p.2 = Cell.Monster := by
      rw [← completes_cells P C hcomp p.1 p.2 (by rw [hm]; simp)]
      exact hm
    have hde : C.is_dead_end ((p.1 : Nat) : Int) ((p.2 : Nat) : Int) = true := by
      rw [← (hscan p).1, isMonster_iff]
      exact hmC
    exact maybe_dead_end_of_completes P C hcomp _ _ hde
  · -- a non-Monster cell of P is not an exact dead end
    intro hm
    by_contra hde
    rw [Bool.not_eq_false] at hde
    unfold Board.is_dead_end at hde
    split at hde
    · exact absurd hde (by simp)
    · next hguard =>
      rw [beq_iff_eq] at hde
      rw [at_coe] at hguard
      have hnu : P.cells p.1 p.2 ≠ Cell.Unknown := by
        intro hcon
        apply hguard
        rw [hcon]
        simp [Cell.isUnknown]
      have hPC : P.cells p.1 p.2 = C.cells p.1 p.2 := completes_cells P C hcomp p.1 p.2 hnu
      have hdeC : C.is_dead_end ((p.1 : Nat) : Int) ((p.2 : Nat) : Int) = false := by
        rw [← (hscan p).1, ← hPC]
        exact hm
      unfold Board.is_dead_end at hdeC
      split at hdeC
      · next hguardC =>
        exfalso
        rw [at_coe, ← hPC] at hguardC
        exact hguard hguardC
      · next hguardC =>
        rw [beq_eq_false_iff_ne] at hdeC
        have hwle : ((neighborsOf ((p.1 : Nat) : Int) ((p.2 : Nat) : Int)).countP
            fun q => (P.at' q.1 q.2).isWall) ≤
            ((neighborsOf ((p.1 : Nat) : Int) ((p.2 : Nat) : Int)).countP
            fun q => (C.at' q.1 q.2).isWall) := by
          apply List.countP_mono_left
          intro q _ hw
          rw [isWall_iff] at hw ⊢
          rw [← completes_at_of_ne P C hcomp q.1 q.2 (by rw [hw]; simp)]
          exact hw
        have hdisj := countP_disjoint_le (fun q : Int × Int => (C.at' q.1 q.2).isWall)
          (fun q : Int × Int => (C.at' q.1 q.2).isEmpty)
          (fun q hw he => by
            rw [isWall_iff] at hw
            rw [isEmpty_iff] at he
            rw [hw] at he
            exact absurd he (by simp))
          (neighborsOf ((p.1 : Nat) : Int) ((p.2 : Nat) : Int))
        have hlen4 : (neighborsOf ((p.1 : Nat) : Int) ((p.2 : Nat) : Int)).length = 4 := rfl
        have hC4 : ((neighborsOf ((p.1 : Nat) : Int) ((p.2 : Nat) : Int)).countP
            fun q => (C.at' q.1 q.2).isWall) = 4 := by omega
        have hallB := List.countP_eq_length.mp (by rw [hC4, hlen4])
        have hall : ∀ n ∈ neighborsOf ((p.1 : Nat) : Int) ((p.2 : Nat) : Int),
            C.at' n.1 n.2 = Cell.Wall := by
          intro n hn
          rw [← isWall_iff]
          exact hallB n hn
        cases hcell : P.cells p.1 p.2 with
        | Unknown => exact hnu hcell
        | Wall =>
          apply hguard
          rw [hcell]
          simp [Cell.isUnknown, Cell.isWall]
        | Monster =>
          rw [hcell] at hm
          exact absurd hm (by simp [Cell.isMonster])
        | Chest =>
          have hchC : C.cells p.1 p.2 = Cell.Chest := by rw [← hPC]; exact hcell
          obtain ⟨q, hqmem, hqroom⟩ := (hscan p).2 (by rw [isChest_iff]; exact hchC)
          obtain ⟨hb1, hb2, hb3, hb4⟩ := candidates_bounds _ _ q hqmem
          obtain ⟨n, hn_nb, hn_in⟩ :=
            interior_neighbor q.1 q.2 ((p.1 : Nat) : Int) ((p.2 : Nat) : Int) hb1 hb2 hb3 hb4
          unfold Board.is_treasure_room at hqroom
          by_cases hsq : insideScanExact C (insideCoords q.1 q.2) false = true
          · rw [insideScanExact_iff] at hsq
            have hnEC := hsq.1 n hn_in
            have hnW := hall n hn_nb
            rcases hnEC with h1 | h1 <;> rw [hnW] at h1 <;> exact absurd h1 (by simp)
          · rw [if_neg hsq] at hqroom
            exact absurd hqroom (by simp)
        | Empty =>
          have hEC : C.cells p.1 p.2 = Cell.Empty := by rw [← hPC]; exact hcell
          cases hfe : firstEmpty C with
          | none =>
            unfold firstEmpty at hfe
            rw [List.find?_eq_none] at hfe
            exact hfe p (mem_rowMajor p) (by rw [isEmpty_iff]; exact hEC)
          | some F =>
            have hflood := hconn F hfe
            have hFprop : C.cells F.1 F.2 = Cell.Empty := by
              have hF2 := List.find?_some hfe
              rw [← isEmpty_iff]
              simpa using hF2
            by_cases hFX : F = p
            · have hpush : pushNeighbors C ((p.1 : Nat) : Int) ((p.2 : Nat) : Int) = [] :=
                pushNeighbors_nil C _ _ hall
              have h1 := floodFuel_singleton_closed C p hpush
              rw [hFX, h1] at hflood
              omega
            · have hbound := floodFuel_bound C p hall floodLimit [F] (fun _ _ => false) 0
                (fun q hq => by
                  rw [List.mem_singleton] at hq
                  rw [hq]
                  refine ⟨?_, hFX⟩
                  rw [hFprop]
                  simp)
                (fun q hq => absurd hq (by simp))
                seenCard_init.symm
              rw [hflood] at hbound
              have hsub : (Finset.univ.filter fun q : Fin 8 × Fin 8 =>
                  C.cells q.1 q.2 ≠ Cell.Wall ∧ q ≠ p) ⊆
                  (Finset.univ.filter fun q : Fin 8 × Fin 8 =>
                  C.cells q.1 q.2 ≠ Cell.Wall) := by
                intro q hq
                rw [Finset.mem_filter] at hq ⊢
                exact ⟨hq.1, hq.2.1⟩
              have hlt : (Finset.univ.filter fun q : Fin 8 × Fin 8 =>
                  C.cells q.1 q.2 ≠ Cell.Wall ∧ q ≠ p).card <
                  (Finset.univ.filter fun q : Fin 8 × Fin 8 =>
                  C.cells q.1 q.2 ≠ Cell.Wall).card := by
                apply Finset.card_lt_card
                rw [Finset.ssubset_iff_of_subset hsub]
                refine ⟨p, ?_, ?_⟩
                · rw [Finset.mem_filter]
                  refine ⟨Finset.mem_univ p, ?_⟩
                  rw [hEC]
                  simp
                · simp [Finset.mem_filter]
              rw [totalNonWall_eq] at hbound
              omega
  · -- a Chest of P still has a relaxed treasure-room candidate
    intro hch
    rw [isChest_iff] at hch
    have hchC : C.cells p.1 p.2 = Cell.Chest := by
      rw [← completes_cells P C hcomp p.1 p.2 (by rw [hch]; simp)]
      exact hch
    obtain ⟨q, hqmem, hqroom⟩ := (hscan p).2 (by rw [isChest_iff]; exact hchC)
    exact ⟨q, hqmem, maybe_treasure_of_completes P C hcomp q.1 q.2 hqroom⟩

/-- C1 witness: the amended soundness theorem applied to `monsterRowPartial`
and its completion `monsterRowBoard` (three non-Wall cells). -/
theorem c1_witness : monsterRowPartial.maybe_solvable = Except.ok () :=
  c1_prune_sound_amended monsterRowPartial monsterRowBoard (by decide)
    ⟨(1, 1), by decide⟩ (by decide) (by decide)

end ZachDnd
